import Mathlib

/-!
Shallow embedding of src/services/media_processor.py.

The MediaProcessor subsystem (bounded asyncio queue, a single worker task,
one future per job) is embedded as an explicit state type together with a
labelled small-step transition function: each label corresponds to one
atomic segment of the Python coroutines between suspension points.  The
asyncio.Queue is modelled by its documented contract: a bounded FIFO buffer
whose blocked producers are woken in arrival order.  The probe and transform
helpers, which are pure given the outcome of the external processes, are
embedded as functions taking the process results (exit code, captured
standard output) and the drawn random values as arguments.
-/

/-- A filesystem path, as a list of components. -/
abbrev FsPath := List String

/-- The errors a job can fail with (the MediaProcessingError cases raised in
the worker body, plus any tool failure surfaced by a transform). -/
inductive MediaError
  | toolFailure (msg : String)
  | unknownKind (kind : String)
deriving DecidableEq

/-- The asyncio.Future created per job in MediaProcessor._enqueue: pending,
or carrying a result path, or carrying an exception. -/
inductive FutureState
  | pending
  | resolved (p : FsPath)
  | failed (e : MediaError)
deriving DecidableEq

/-- MediaJob from the source: kind string, source path, destination
directory.  The field jid is the identity of the future created for this
job; the futures map of the state is keyed by it. -/
structure MediaJob where
  kind : String
  jid : Nat
  source_path : FsPath
  destination_dir : FsPath
deriving DecidableEq

/-- Where the worker coroutine currently is: done covers both the absence of
a task and a finished or cancelled task; idle is the top of the while loop;
waitGet is suspended inside queue.get; processing is inside the try body of
the loop running a transform. -/
inductive WorkerPhase
  | done
  | idle
  | waitGet
  | processing (j : MediaJob)
deriving DecidableEq

/-- The mutable state of a MediaProcessor together with the ghost histories
enqueued and dequeued (the jids appended to the queue, in order, and the
jids the worker pulled out, in order).  taskVar records whether the
attribute holding the worker task is set (it is never reset to None by the
source, only assigned in start). -/
structure ProcState where
  capacity : Nat
  queue : List MediaJob
  pendingPuts : List MediaJob
  futures : Nat → FutureState
  shutdown : Bool
  taskVar : Bool
  worker : WorkerPhase
  enqueued : List Nat
  dequeued : List Nat

/-- Transition labels: one per atomic coroutine segment.  submit covers
_enqueue up to and including queue.put (or joining the waiter list when the
queue is full); putDone is a blocked producer completing its put after a
slot freed; check is the loop condition test; getJob is queue.get returning;
finish is the rest of the loop body, with r the outcome of the transform. -/
inductive Label
  | start
  | stop
  | submit (j : MediaJob)
  | putDone
  | check
  | getJob
  | finish (r : Except MediaError FsPath)

/-- The outcomes the worker body can produce for a given job kind: a known
kind runs the external tool, which may produce a path or a tool failure; an
unknown kind deterministically raises the unknown-job-type error. -/
def allowedOutcome (kind : String) : Except MediaError FsPath → Bool
  | .ok _ => kind == "photo" || kind == "video"
  | .error (.toolFailure _) => kind == "photo" || kind == "video"
  | .error (.unknownKind k) => (!(kind == "photo" || kind == "video")) && (k == kind)

/-- set_result or set_exception guarded, as in the source, by the check
if not job.future.done(). -/
def resolveFuture (f : Nat → FutureState) (k : Nat) (r : Except MediaError FsPath) :
    Nat → FutureState :=
  match f k with
  | .pending =>
      fun m => if m = k then (match r with | .ok p => .resolved p | .error e => .failed e)
               else f m
  | _ => f

/-- One atomic step of the subsystem.  Returns none when the label is not
enabled in the given state.  Freshness of the jid of a submitted job stands
for the freshness of the future object _enqueue creates. -/
def stepFn (s : ProcState) : Label → Option ProcState
  | .start =>
      if s.taskVar then some { s with shutdown := false }
      else some { s with shutdown := false, taskVar := true, worker := .idle }
  | .stop =>
      if s.taskVar then some { s with shutdown := true, worker := .done }
      else some { s with shutdown := true }
  | .submit j =>
      if j.jid ∈ s.enqueued ∨ j.jid ∈ s.pendingPuts.map MediaJob.jid then none
      else if s.pendingPuts = [] ∧ s.queue.length < s.capacity then
        some { s with queue := s.queue ++ [j], enqueued := s.enqueued ++ [j.jid] }
      else
        some { s with pendingPuts := s.pendingPuts ++ [j] }
  | .putDone =>
      match s.pendingPuts with
      | [] => none
      | p :: ps =>
          if s.queue.length < s.capacity then
            some { s with queue := s.queue ++ [p], pendingPuts := ps,
                          enqueued := s.enqueued ++ [p.jid] }
          else none
  | .check =>
      match s.worker with
      | .idle => some { s with worker := if s.shutdown then .done else .waitGet }
      | _ => none
  | .getJob =>
      match s.worker, s.queue with
      | .waitGet, j :: rest =>
          some { s with worker := .processing j, queue := rest,
                        dequeued := s.dequeued ++ [j.jid] }
      | _, _ => none
  | .finish r =>
      match s.worker with
      | .processing j =>
          if allowedOutcome j.kind r then
            some { s with worker := .idle, futures := resolveFuture s.futures j.jid r }
          else none
      | _ => none

/-- The state of a freshly constructed MediaProcessor(queue_maxsize := c). -/
def initState (c : Nat) : ProcState :=
  { capacity := c, queue := [], pendingPuts := [], futures := fun _ => .pending,
    shutdown := false, taskVar := false, worker := .done, enqueued := [], dequeued := [] }

/-- A single enabled step to a successor state. -/
def StepTo (s t : ProcState) : Prop := ∃ l, stepFn s l = some t

/-- Reachability along any interleaving of enabled steps. -/
def Reach : ProcState → ProcState → Prop := Relation.ReflTransGen StepTo

/-- Execute a concrete list of labels from a state. -/
def runFrom (s : ProcState) : List Label → Option ProcState
  | [] => some s
  | l :: ls =>
      match stepFn s l with
      | some t => runFrom t ls
      | none => none

theorem runFrom_reach : ∀ (ls : List Label) (s t : ProcState),
    runFrom s ls = some t → Reach s t := by
  intro ls
  induction ls with
  | nil =>
      intro s t h
      simp only [runFrom, Option.some.injEq] at h
      exact h ▸ Relation.ReflTransGen.refl
  | cons l ls ih =>
      intro s t h
      simp only [runFrom] at h
      cases hl : stepFn s l with
      | none => rw [hl] at h; exact absurd h (by simp)
      | some u =>
          rw [hl] at h
          exact Relation.ReflTransGen.head ⟨l, hl⟩ (ih u t h)

/-- A future that is not pending is untouched by resolveFuture. -/
theorem resolveFuture_ne (f : Nat → FutureState) (m k : Nat)
    (r : Except MediaError FsPath) (hk : f k ≠ .pending) :
    resolveFuture f m r k = f k := by
  unfold resolveFuture
  cases hm : f m with
  | pending =>
      by_cases hkm : k = m
      · exact absurd (hkm ▸ hm) hk
      · simp [hkm]
  | resolved p => rfl
  | failed e => rfl

/-- resolveFuture only touches the index it resolves. -/
theorem resolveFuture_other (f : Nat → FutureState) (m k : Nat)
    (r : Except MediaError FsPath) (hkm : k ≠ m) :
    resolveFuture f m r k = f k := by
  unfold resolveFuture
  cases f m with
  | pending => simp [hkm]
  | resolved p => rfl
  | failed e => rfl

/-- After resolveFuture, the resolved index is never pending. -/
theorem resolveFuture_self_resolved (f : Nat → FutureState) (k : Nat)
    (r : Except MediaError FsPath) : resolveFuture f k r k ≠ .pending := by
  unfold resolveFuture
  cases hk : f k with
  | pending =>
      simp only [if_pos rfl]
      cases r <;> simp
  | resolved p => simp [hk]
  | failed e => simp [hk]

/-- Single-assignment permanence: no step of the system changes a future
that is already resolved. -/
theorem futures_permanent {s t : ProcState} {l : Label} {k : Nat}
    (h : stepFn s l = some t) (hk : s.futures k ≠ .pending) :
    t.futures k = s.futures k := by
  cases l with
  | start =>
      simp only [stepFn] at h
      split at h <;> (injection h with h; subst h; rfl)
  | stop =>
      simp only [stepFn] at h
      split at h <;> (injection h with h; subst h; rfl)
  | submit j =>
      simp only [stepFn] at h
      split at h
      · exact absurd h (by simp)
      · split at h <;> (injection h with h; subst h; rfl)
  | putDone =>
      simp only [stepFn] at h
      split at h
      · exact absurd h (by simp)
      · split at h
        · injection h with h; subst h; rfl
        · exact absurd h (by simp)
  | check =>
      simp only [stepFn] at h
      split at h
      · injection h with h; subst h; rfl
      · exact absurd h (by simp)
  | getJob =>
      simp only [stepFn] at h
      split at h
      · injection h with h; subst h; rfl
      · exact absurd h (by simp)
  | finish r =>
      simp only [stepFn] at h
      split at h
      · rename_i j hj
        split at h
        · injection h with h; subst h
          exact resolveFuture_ne s.futures j.jid k r hk
        · exact absurd h (by simp)
      · exact absurd h (by simp)

/-- Permanence along any execution: a resolved future keeps its value. -/
theorem futures_permanent_reach {s t : ProcState} {k : Nat}
    (h : Reach s t) (hk : s.futures k ≠ .pending) :
    t.futures k = s.futures k := by
  induction h with
  | refl => rfl
  | tail _ hstep ih =>
      rcases hstep with ⟨l, hl⟩
      rw [futures_permanent hl (ih ▸ hk), ih]

/-- The dequeue history only grows. -/
theorem dequeued_extend {s t : ProcState} {l : Label}
    (h : stepFn s l = some t) : ∃ d, t.dequeued = s.dequeued ++ d := by
  cases l with
  | start =>
      simp only [stepFn] at h
      split at h <;> (injection h with h; subst h; exact ⟨[], by simp⟩)
  | stop =>
      simp only [stepFn] at h
      split at h <;> (injection h with h; subst h; exact ⟨[], by simp⟩)
  | submit j =>
      simp only [stepFn] at h
      split at h
      · exact absurd h (by simp)
      · split at h <;> (injection h with h; subst h; exact ⟨[], by simp⟩)
  | putDone =>
      simp only [stepFn] at h
      split at h
      · exact absurd h (by simp)
      · split at h
        · injection h with h; subst h; exact ⟨[], by simp⟩
        · exact absurd h (by simp)
  | check =>
      simp only [stepFn] at h
      split at h
      · injection h with h; subst h; exact ⟨[], by simp⟩
      · exact absurd h (by simp)
  | getJob =>
      simp only [stepFn] at h
      split at h
      · injection h with h; subst h; exact ⟨_, rfl⟩
      · exact absurd h (by simp)
  | finish r =>
      simp only [stepFn] at h
      split at h
      · split at h
        · injection h with h; subst h; exact ⟨[], by simp⟩
        · exact absurd h (by simp)
      · exact absurd h (by simp)

/-- Once a jid was dequeued, it stays in the dequeue history. -/
theorem dequeued_mem_reach {s t : ProcState} {k : Nat}
    (h : Reach s t) (hk : k ∈ s.dequeued) : k ∈ t.dequeued := by
  induction h with
  | refl => exact hk
  | tail _ hstep ih =>
      rcases hstep with ⟨l, hl⟩
      rcases dequeued_extend hl with ⟨d, hd⟩
      rw [hd]
      exact List.mem_append_left d ih

/-- A dead worker: the task attribute is set but its task has finished or
was cancelled.  No start, and hence no transition, can revive it. -/
def Dead (s : ProcState) : Prop := s.worker = .done ∧ s.taskVar = true

/-- A step from a dead-worker state keeps the worker dead and touches no
future. -/
theorem dead_step {s t : ProcState} {l : Label} (hd : Dead s)
    (h : stepFn s l = some t) :
    Dead t ∧ (∀ k, t.futures k = s.futures k) := by
  obtain ⟨hw, hv⟩ := hd
  cases l with
  | start =>
      simp only [stepFn, hv, if_pos] at h
      injection h with h; subst h
      exact ⟨⟨hw, rfl⟩, fun _ => rfl⟩
  | stop =>
      simp only [stepFn, hv, if_pos] at h
      injection h with h; subst h
      exact ⟨⟨rfl, rfl⟩, fun _ => rfl⟩
  | submit j =>
      simp only [stepFn] at h
      split at h
      · exact absurd h (by simp)
      · split at h <;> (injection h with h; subst h; exact ⟨⟨hw, hv⟩, fun _ => rfl⟩)
  | putDone =>
      simp only [stepFn] at h
      split at h
      · exact absurd h (by simp)
      · split at h
        · injection h with h; subst h; exact ⟨⟨hw, hv⟩, fun _ => rfl⟩
        · exact absurd h (by simp)
  | check =>
      simp only [stepFn, hw] at h
      exact Option.noConfusion h
  | getJob =>
      simp only [stepFn, hw] at h
      exact Option.noConfusion h
  | finish r =>
      simp only [stepFn, hw] at h
      exact Option.noConfusion h

/-- A dead worker stays dead along any execution, and no future ever
changes again. -/
theorem dead_reach {s t : ProcState} (hd : Dead s) (h : Reach s t) :
    Dead t ∧ (∀ k, t.futures k = s.futures k) := by
  induction h with
  | refl => exact ⟨hd, fun _ => rfl⟩
  | tail _ hstep ih =>
      rcases hstep with ⟨l, hl⟩
      obtain ⟨hdt, hft⟩ := dead_step ih.1 hl
      exact ⟨hdt, fun k => (hft k).trans (ih.2 k)⟩

/-- With a dead worker and a full queue, the queue is frozen and the waiter
list only grows at the back: a suspended producer is never released. -/
theorem full_dead_step {s t : ProcState} {l : Label} (hd : Dead s)
    (hfull : s.capacity ≤ s.queue.length) (h : stepFn s l = some t) :
    Dead t ∧ t.queue = s.queue ∧ t.capacity = s.capacity ∧
      ∃ d, t.pendingPuts = s.pendingPuts ++ d := by
  obtain ⟨hw, hv⟩ := hd
  cases l with
  | start =>
      simp only [stepFn, hv, if_pos] at h
      injection h with h; subst h
      exact ⟨⟨hw, rfl⟩, rfl, rfl, [], by simp⟩
  | stop =>
      simp only [stepFn, hv, if_pos] at h
      injection h with h; subst h
      exact ⟨⟨rfl, rfl⟩, rfl, rfl, [], by simp⟩
  | submit j =>
      simp only [stepFn] at h
      split at h
      · exact absurd h (by simp)
      · split at h
        · rename_i hcond
          exact absurd hcond.2 (by omega)
        · injection h with h; subst h
          exact ⟨⟨hw, hv⟩, rfl, rfl, [j], rfl⟩
  | putDone =>
      simp only [stepFn] at h
      split at h
      · exact absurd h (by simp)
      · split at h
        · rename_i hlt
          exact absurd hlt (by omega)
        · exact absurd h (by simp)
  | check =>
      simp only [stepFn, hw] at h
      exact Option.noConfusion h
  | getJob =>
      simp only [stepFn, hw] at h
      exact Option.noConfusion h
  | finish r =>
      simp only [stepFn, hw] at h
      exact Option.noConfusion h

/-- Along any execution from a dead-worker state with a full queue, the
head of the waiter list never changes: the blocked put never completes. -/
theorem full_dead_reach {s t : ProcState} (hd : Dead s)
    (hfull : s.capacity ≤ s.queue.length) (h : Reach s t) :
    Dead t ∧ t.queue = s.queue ∧ t.capacity = s.capacity ∧
      ∃ d, t.pendingPuts = s.pendingPuts ++ d := by
  induction h with
  | refl => exact ⟨hd, rfl, rfl, [], by simp⟩
  | tail _ hstep ih =>
      rcases hstep with ⟨l, hl⟩
      obtain ⟨hd1, hq1, hc1, d1, hp1⟩ := ih
      obtain ⟨hd2, hq2, hc2, d2, hp2⟩ :=
        full_dead_step hd1 (by rw [hq1, hc1]; exact hfull) hl
      exact ⟨hd2, hq2.trans hq1, hc2.trans hc1, d1 ++ d2,
        by rw [hp2, hp1, List.append_assoc]⟩

/-- The reachability invariant of the processor.  hist: the enqueue history
splits into the dequeue history followed by the current queue contents
(strict FIFO, nothing lost).  cap: occupancy is bounded by the configured
capacity.  nodup: no jid is used twice.  freshPending: a jid that never
entered the queue has a pending future.  qPending: every queued job has a
pending future.  ppFresh and ppNodup: blocked producers hold fresh,
pairwise distinct jids.  procDeq and procPending: the in-flight job was
dequeued and its future is still pending.  taskW: without a task attribute
there is no live worker. -/
structure ProcInv (s : ProcState) : Prop where
  hist : s.enqueued = s.dequeued ++ s.queue.map MediaJob.jid
  cap : s.queue.length ≤ s.capacity
  nodup : s.enqueued.Nodup
  freshPending : ∀ k, k ∉ s.enqueued → s.futures k = .pending
  qPending : ∀ j ∈ s.queue, s.futures j.jid = .pending
  ppFresh : ∀ j ∈ s.pendingPuts, j.jid ∉ s.enqueued
  ppNodup : (s.pendingPuts.map MediaJob.jid).Nodup
  procDeq : ∀ j, s.worker = .processing j → j.jid ∈ s.dequeued
  procPending : ∀ j, s.worker = .processing j → s.futures j.jid = .pending
  taskW : s.taskVar = false → s.worker = .done

theorem inv_init (c : Nat) : ProcInv (initState c) := by
  refine ⟨rfl, by simp [initState], by simp [initState], fun _ _ => rfl, ?_, ?_, ?_, ?_, ?_, ?_⟩
  · intro j hj; exact absurd hj (by simp [initState])
  · intro j hj; exact absurd hj (by simp [initState])
  · simp [initState]
  · intro j hj; exact absurd hj (by simp [initState])
  · intro j hj; exact absurd hj (by simp [initState])
  · intro _; rfl

/-- The dequeue history is always part of the enqueue history. -/
theorem inv_deq_subset {s : ProcState} (inv : ProcInv s) :
    ∀ k ∈ s.dequeued, k ∈ s.enqueued := by
  intro k hk
  rw [inv.hist]
  exact List.mem_append_left _ hk

theorem inv_preserved {s t : ProcState} {l : Label} (inv : ProcInv s)
    (h : stepFn s l = some t) : ProcInv t := by
  cases l with
  | start =>
      simp only [stepFn] at h
      split at h
      · rename_i hv
        injection h with h; subst h
        exact ⟨inv.hist, inv.cap, inv.nodup, inv.freshPending, inv.qPending,
          inv.ppFresh, inv.ppNodup, inv.procDeq, inv.procPending,
          fun hf => absurd (show s.taskVar = false from hf) (by simp [hv])⟩
      · injection h with h; subst h
        exact ⟨inv.hist, inv.cap, inv.nodup, inv.freshPending, inv.qPending,
          inv.ppFresh, inv.ppNodup,
          fun j hj => WorkerPhase.noConfusion hj,
          fun j hj => WorkerPhase.noConfusion hj,
          fun hf => Bool.noConfusion hf⟩
  | stop =>
      simp only [stepFn] at h
      split at h
      · rename_i hv
        injection h with h; subst h
        exact ⟨inv.hist, inv.cap, inv.nodup, inv.freshPending, inv.qPending,
          inv.ppFresh, inv.ppNodup,
          fun j hj => WorkerPhase.noConfusion hj,
          fun j hj => WorkerPhase.noConfusion hj,
          fun hf => absurd (show s.taskVar = false from hf) (by simp [hv])⟩
      · injection h with h; subst h
        exact ⟨inv.hist, inv.cap, inv.nodup, inv.freshPending, inv.qPending,
          inv.ppFresh, inv.ppNodup, inv.procDeq, inv.procPending, inv.taskW⟩
  | submit j =>
      simp only [stepFn] at h
      split at h
      · exact absurd h (by simp)
      · rename_i hfresh
        push_neg at hfresh
        obtain ⟨hfr1, hfr2⟩ := hfresh
        split at h
        · rename_i hcond
          injection h with h; subst h
          refine ⟨?_, ?_, ?_, ?_, ?_, ?_, ?_, inv.procDeq, inv.procPending, inv.taskW⟩
          · show s.enqueued ++ [j.jid] = s.dequeued ++ (s.queue ++ [j]).map MediaJob.jid
            rw [inv.hist]; simp
          · show (s.queue ++ [j]).length ≤ s.capacity
            rw [List.length_append, List.length_singleton]
            omega
          · show (s.enqueued ++ [j.jid]).Nodup
            rw [List.nodup_append]
            exact ⟨inv.nodup, List.nodup_singleton _,
              fun a ha hb => (List.mem_singleton.mp hb ▸ hfr1 : a ∉ s.enqueued) ha⟩
          · intro k hk
            exact inv.freshPending k (fun hmem => hk (List.mem_append_left _ hmem))
          · intro jq hjq
            rcases List.mem_append.mp hjq with hmem | hmem
            · exact inv.qPending jq hmem
            · rw [List.mem_singleton.mp hmem]
              exact inv.freshPending j.jid hfr1
          · intro jq hjq
            rw [hcond.1] at hjq
            exact absurd hjq (by simp)
          · rw [hcond.1]; simp
        · injection h with h; subst h
          refine ⟨inv.hist, inv.cap, inv.nodup, inv.freshPending, inv.qPending,
            ?_, ?_, inv.procDeq, inv.procPending, inv.taskW⟩
          · intro jq hjq
            rcases List.mem_append.mp hjq with hmem | hmem
            · exact inv.ppFresh jq hmem
            · rw [List.mem_singleton.mp hmem]; exact hfr1
          · show ((s.pendingPuts ++ [j]).map MediaJob.jid).Nodup
            rw [List.map_append, List.nodup_append]
            exact ⟨inv.ppNodup, by simp,
              fun a ha hb => by
                rw [List.map_singleton, List.mem_singleton] at hb
                exact (hb ▸ hfr2 : a ∉ s.pendingPuts.map MediaJob.jid) ha⟩
  | putDone =>
      simp only [stepFn] at h
      split at h
      · exact absurd h (by simp)
      · rename_i p ps hpp
        split at h
        · rename_i hlt
          injection h with h; subst h
          have hpfresh : p.jid ∉ s.enqueued := inv.ppFresh p (by rw [hpp]; simp)
          refine ⟨?_, ?_, ?_, ?_, ?_, ?_, ?_, inv.procDeq, inv.procPending, inv.taskW⟩
          · show s.enqueued ++ [p.jid] = s.dequeued ++ (s.queue ++ [p]).map MediaJob.jid
            rw [inv.hist]; simp
          · show (s.queue ++ [p]).length ≤ s.capacity
            rw [List.length_append, List.length_singleton]; omega
          · rw [List.nodup_append]
            exact ⟨inv.nodup, List.nodup_singleton _,
              fun a ha hb => (List.mem_singleton.mp hb ▸ hpfresh : a ∉ s.enqueued) ha⟩
          · intro k hk
            exact inv.freshPending k (fun hmem => hk (List.mem_append_left _ hmem))
          · intro jq hjq
            rcases List.mem_append.mp hjq with hmem | hmem
            · exact inv.qPending jq hmem
            · rw [List.mem_singleton.mp hmem]
              exact inv.freshPending p.jid hpfresh
          · intro jq hjq
            have hmem : jq ∈ s.pendingPuts := by rw [hpp]; exact List.mem_cons_of_mem _ hjq
            intro hin
            rcases List.mem_append.mp hin with hmem2 | hmem2
            · exact inv.ppFresh jq hmem hmem2
            · have hnd := inv.ppNodup
              rw [hpp, List.map_cons, List.nodup_cons] at hnd
              exact hnd.1 (List.mem_singleton.mp hmem2 ▸ List.mem_map_of_mem MediaJob.jid hjq)
          · have hnd := inv.ppNodup
            rw [hpp, List.map_cons, List.nodup_cons] at hnd
            exact hnd.2
        · exact absurd h (by simp)
  | check =>
      simp only [stepFn] at h
      split at h
      · rename_i hw
        injection h with h; subst h
        refine ⟨inv.hist, inv.cap, inv.nodup, inv.freshPending, inv.qPending,
          inv.ppFresh, inv.ppNodup, ?_, ?_, ?_⟩
        · intro j hj
          split at hj <;> exact WorkerPhase.noConfusion hj
        · intro j hj
          split at hj <;> exact WorkerPhase.noConfusion hj
        · intro hf
          exact absurd (inv.taskW hf) (by rw [hw]; simp)
      · exact absurd h (by simp)
  | getJob =>
      simp only [stepFn] at h
      split at h
      · rename_i jq rest hw hq
        injection h with h; subst h
        refine ⟨?_, ?_, inv.nodup, inv.freshPending, ?_, inv.ppFresh, inv.ppNodup,
          ?_, ?_, ?_⟩
        · show s.enqueued = (s.dequeued ++ [jq.jid]) ++ rest.map MediaJob.jid
          rw [inv.hist, hq]; simp
        · show rest.length ≤ s.capacity
          have := inv.cap
          rw [hq] at this
          simp at this
          omega
        · intro j hj
          exact inv.qPending j (by rw [hq]; exact List.mem_cons_of_mem _ hj)
        · intro j hj
          injection hj with hj
          subst hj
          simp
        · intro j hj
          injection hj with hj
          subst hj
          exact inv.qPending jq (by rw [hq]; simp)
        · intro hf
          exact absurd (inv.taskW hf) (by rw [hw]; simp)
      · exact absurd h (by simp)
  | finish r =>
      simp only [stepFn] at h
      split at h
      · rename_i j hw
        split at h
        · injection h with h; subst h
          have hdeq : j.jid ∈ s.dequeued := inv.procDeq j hw
          have henq : j.jid ∈ s.enqueued := inv_deq_subset inv j.jid hdeq
          have hdisj : ∀ k ∈ s.queue.map MediaJob.jid, j.jid ≠ k := by
            intro k hk heq
            have hnd := inv.nodup
            rw [inv.hist, List.nodup_append] at hnd
            exact hnd.2.2 hdeq (heq ▸ hk)
          refine ⟨inv.hist, inv.cap, inv.nodup, ?_, ?_, inv.ppFresh, inv.ppNodup,
            ?_, ?_, ?_⟩
          · intro k hk
            show resolveFuture s.futures j.jid r k = .pending
            rw [resolveFuture_other s.futures j.jid k r (fun hkk => hk (hkk ▸ henq))]
            exact inv.freshPending k hk
          · intro jq hjq
            show resolveFuture s.futures j.jid r jq.jid = .pending
            rw [resolveFuture_other s.futures j.jid jq.jid r
              (fun hkk => hdisj jq.jid (List.mem_map_of_mem MediaJob.jid hjq) hkk.symm)]
            exact inv.qPending jq hjq
          · intro jq hjq
            exact WorkerPhase.noConfusion hjq
          · intro jq hjq
            exact WorkerPhase.noConfusion hjq
          · intro hf
            exact absurd (inv.taskW hf) (by rw [hw]; simp)
        · exact absurd h (by simp)
      · exact absurd h (by simp)

/-- The invariant holds in every reachable state. -/
theorem inv_reach {c : Nat} {s : ProcState} (h : Reach (initState c) s) : ProcInv s := by
  induction h with
  | refl => exact inv_init c
  | tail _ hstep ih =>
      rcases hstep with ⟨l, hl⟩
      exact inv_preserved ih hl

/-- The outcome the worker body produces when the external tool fails, or
the deterministic unknown-kind error. -/
def defaultOutcome (j : MediaJob) : Except MediaError FsPath :=
  if j.kind = "photo" ∨ j.kind = "video" then .error (.toolFailure "tool failed")
  else .error (.unknownKind j.kind)

theorem defaultOutcome_allowed (j : MediaJob) :
    allowedOutcome j.kind (defaultOutcome j) = true := by
  unfold defaultOutcome
  by_cases hk : j.kind = "photo" ∨ j.kind = "video"
  · rw [if_pos hk]
    show (j.kind == "photo" || j.kind == "video") = true
    rcases hk with hk | hk <;> simp [hk]
  · rw [if_neg hk]
    obtain ⟨h1, h2⟩ := not_or.mp hk
    show ((!(j.kind == "photo" || j.kind == "video")) && (j.kind == j.kind)) = true
    simp [h1, h2]

/-- Progress: a live, non-shutdown worker sitting at the top of its loop can
drain the whole current queue, dequeuing every queued job and resolving its
future.  This is the schedule in which the worker keeps running. -/
theorem drain : ∀ (q : List MediaJob) (s : ProcState),
    s.worker = .idle → s.shutdown = false → s.queue = q →
    ∃ t, Reach s t ∧ ∀ j ∈ q, j.jid ∈ t.dequeued ∧ t.futures j.jid ≠ .pending := by
  intro q
  induction q with
  | nil =>
      intro s _ _ _
      exact ⟨s, Relation.ReflTransGen.refl, by simp⟩
  | cons j rest ih =>
      intro s hw hsd hq
      have h1 : stepFn s .check = some { s with worker := .waitGet } := by
        simp [stepFn, hw, hsd]
      have h2 : stepFn { s with worker := WorkerPhase.waitGet } .getJob =
          some { s with worker := .processing j, queue := rest,
                        dequeued := s.dequeued ++ [j.jid] } := by
        simp only [stepFn]
        rw [show ({ s with worker := WorkerPhase.waitGet } : ProcState).queue = j :: rest from hq]
      have h3 : stepFn
          { s with worker := WorkerPhase.processing j, queue := rest,
                   dequeued := s.dequeued ++ [j.jid] }
          (.finish (defaultOutcome j)) =
          some { s with worker := .idle, queue := rest,
                        dequeued := s.dequeued ++ [j.jid],
                        futures := resolveFuture s.futures j.jid (defaultOutcome j) } := by
        simp [stepFn, defaultOutcome_allowed j]
      obtain ⟨t, ht, hres⟩ := ih
        { s with worker := .idle, queue := rest,
                 dequeued := s.dequeued ++ [j.jid],
                 futures := resolveFuture s.futures j.jid (defaultOutcome j) }
        rfl hsd rfl
      refine ⟨t, ?_, ?_⟩
      · exact Relation.ReflTransGen.head ⟨.check, h1⟩
          (Relation.ReflTransGen.head ⟨.getJob, h2⟩
            (Relation.ReflTransGen.head ⟨.finish (defaultOutcome j), h3⟩ ht))
      · intro jq hjq
        rcases List.mem_cons.mp hjq with hmem | hmem
        · subst hmem
          constructor
          · exact dequeued_mem_reach ht (by simp)
          · have hne : resolveFuture s.futures jq.jid (defaultOutcome jq) jq.jid ≠ .pending :=
              resolveFuture_self_resolved s.futures jq.jid (defaultOutcome jq)
            rw [futures_permanent_reach ht hne]
            exact hne
        · exact hres jq hmem

/-- Python str.strip with no argument: whitespace removed from both ends. -/
def pyStrip (s : String) : String :=
  ⟨((s.data.dropWhile Char.isWhitespace).reverse.dropWhile Char.isWhitespace).reverse⟩

/-- Models _probe_has_audio given the outcome of its ffprobe process: the
source returns bool(stdout and stdout.decode().strip()), consulting only
whether the captured standard output is non-empty after stripping.  The
exit code parameter is taken but, as in the source, never read. -/
def probe_has_audio (returncode : Int) (stdout : String) : Bool :=
  !(pyStrip stdout == "")

/-- Modelled from the words of the spec, for comparison with
probe_has_audio: presence equals exit code 0 AND non-empty trimmed
output. -/
def specAudioPresence (returncode : Int) (stdout : String) : Bool :=
  (returncode == 0) && !(pyStrip stdout == "")

/-- A non-empty all-digit character list read as a decimal number. -/
def parseNatDigits (l : List Char) : Option Nat :=
  if l ≠ [] ∧ l.all Char.isDigit then
    some (l.foldl (fun acc c => acc * 10 + (c.toNat - 48)) 0)
  else none

/-- Python int() applied to a decoded, stripped output string: an optional
sign followed by decimal digits; anything else fails.  Digit-group
underscores, accepted by Python, are not modelled. -/
def pyParseInt (s : String) : Option Int :=
  match s.data with
  | '-' :: rest => (parseNatDigits rest).map (fun n => -(n : Int))
  | '+' :: rest => (parseNatDigits rest).map (fun n => (n : Int))
  | l => (parseNatDigits l).map (fun n => (n : Int))

/-- Models _probe_bitrate given the outcome of its ffprobe process: on exit
code 0 the stripped output parsed as an integer; any parse failure or
non-zero exit yields the default 2000000 and never an error. -/
def probe_bitrate (returncode : Int) (stdout : String) : Int :=
  if returncode == 0 then
    match pyParseInt (pyStrip stdout) with
    | some n => n
    | none => 2000000
  else 2000000

/-- Python int() applied to a real value: truncation toward zero. -/
def pyTrunc (q : ℚ) : ℤ := if 0 ≤ q then ⌊q⌋ else ⌈q⌉

/-- The target bitrate computation of process_video:
max(int(bitrate * (1 + bitrate_delta)), 300000). -/
def target_bitrate (bitrate : ℤ) (bitrate_delta : ℚ) : ℤ :=
  max (pyTrunc ((bitrate : ℚ) * (1 + bitrate_delta))) 300000

/-- The fixed rotation list of process_photo. -/
def rotationChoices : List ℚ := [-0.3, -0.2, 0.2, 0.3]

/-- random.choice from the rotation list, with i the drawn index. -/
def rotationDraw (i : Nat) : ℚ := rotationChoices.getD (i % 4) 0

/-- random.uniform(a, b) as a + (b - a) * u with u the unit draw. -/
def pyUniform (a b u : ℚ) : ℚ := a + (b - a) * u

/-- The noise intensity draw of process_photo: random.uniform(1.0, 2.0). -/
def noise_level (u : ℚ) : ℚ := pyUniform 1.0 2.0 u

/-- The externally visible actions of a transform, in order: a directory
creation with its parents and exist_ok flags, or a subprocess invocation
with its full argument list. -/
inductive Effect
  | mkdir (dir : FsPath) (parents existOk : Bool)
  | runProcess (cmd : List String)
deriving DecidableEq

/-- Every non-empty initial segment of a path: the directory and all its
ancestors. -/
def ancestors (d : FsPath) : List FsPath := d.inits.filter (fun p => !p.isEmpty)

/-- pathlib mkdir on an abstract filesystem (the list of existing
directories): exist_ok suppresses the error on an existing directory;
parents creates every missing ancestor; without parents a missing parent is
an error. -/
def runMkdir (fs : List FsPath) (d : FsPath) (parents existOk : Bool) :
    Except Unit (List FsPath) :=
  if d ∈ fs then (if existOk then .ok fs else .error ())
  else if parents then .ok (ancestors d ++ fs)
  else if d.dropLast ∈ fs ∨ d.dropLast = [] then .ok (d :: fs) else .error ()

/-- Rendering of a numeric filter parameter into its argument string; the
fixed-point formatting of the source is abstracted to the exact decimal. -/
def fmtQ (q : ℚ) : String := toString q

def pathStr (p : FsPath) : String := String.intercalate "/" p

/-- Codec selection of process_photo from the lowered suffix. -/
def photoCodec (suffix : String) : String :=
  if suffix = ".png" then "png"
  else if suffix = ".jpeg" ∨ suffix = ".jpg" then "mjpeg"
  else "mjpeg"

/-- The Python expression s or d on strings: d when s is empty. -/
def orDefault (s d : String) : String := if s = "" then d else s

/-- process_photo, embedded over the drawn randomness (i the rotation
index, u the unit draw for the noise level), the uuid hex string, and the
lowered source suffix; returns the effect trace and the output path the
coroutine returns. -/
def process_photo (suffixLower uid : String) (i : Nat) (u : ℚ)
    (source_path destination_dir : FsPath) : List Effect × FsPath :=
  let suffix := orDefault suffixLower ".jpg"
  let codec := photoCodec suffix
  let rot := rotationDraw i
  let noise := noise_level u
  let output_name := uid ++ suffix
  let output_path := destination_dir ++ [output_name]
  let vf_filters := [s!"rotate={fmtQ rot}*PI/180:fillcolor=white@0",
                     "crop=iw-2:ih-2",
                     s!"noise=alls={fmtQ noise}:allf=t"]
  let cmd := ["ffmpeg", "-y", "-hide_banner", "-loglevel", "error",
              "-i", pathStr source_path, "-map_metadata", "-1",
              "-vf", String.intercalate "," vf_filters,
              "-c:v", codec, pathStr output_path]
  ([.mkdir destination_dir true true, .runProcess cmd], output_path)

/-- Output extension normalization of process_video. -/
def videoSuffix (suffixLower : String) : String :=
  let suffix := orDefault suffixLower ".mp4"
  if suffix = ".mp4" ∨ suffix = ".mov" ∨ suffix = ".mkv" then suffix else ".mp4"

/-- The ffprobe argument list of _probe_bitrate. -/
def probeBitrateCmd (p : FsPath) : List String :=
  ["ffprobe", "-v", "error", "-select_streams", "v:0",
   "-show_entries", "stream=bit_rate",
   "-of", "default=noprint_wrappers=1:nokey=1", pathStr p]

/-- The ffprobe argument list of _probe_has_audio. -/
def probeAudioCmd (p : FsPath) : List String :=
  ["ffprobe", "-v", "error", "-select_streams", "a",
   "-show_entries", "stream=codec_type", "-of", "csv=p=0", pathStr p]

/-- process_video, embedded over the drawn randomness and the outcomes of
the two probe processes; returns the effect trace (directory creation, the
two probe invocations, the transform invocation) and the output path the
coroutine returns. -/
def process_video (suffixLower uid : String)
    (bitrateRc : Int) (bitrateOut : String) (bitrate_delta : ℚ)
    (speed_delta gamma_delta : ℚ)
    (audioRc : Int) (audioOut : String)
    (source_path destination_dir : FsPath) : List Effect × FsPath :=
  let suffix := videoSuffix suffixLower
  let output_name := uid ++ suffix
  let output_path := destination_dir ++ [output_name]
  let bitrate := probe_bitrate bitrateRc bitrateOut
  let targetRate := target_bitrate bitrate bitrate_delta
  let speed_factor := max 0.98 (min 1.02 (1 + speed_delta))
  let gamma_shift := 1 + gamma_delta
  let has_audio := probe_has_audio audioRc audioOut
  let vf_filters := [s!"setpts={fmtQ (1 / speed_factor)}*PTS",
                     s!"eq=gamma={fmtQ gamma_shift}"]
  let cmd := ["ffmpeg", "-y", "-hide_banner", "-loglevel", "error",
              "-i", pathStr source_path, "-map_metadata", "-1",
              "-vf", String.intercalate "," vf_filters,
              "-c:v", "libx264", "-preset", "medium",
              "-b:v", toString targetRate, "-movflags", "+faststart"]
    ++ (if has_audio then ["-c:a", "aac", "-b:a", "192k",
                           "-af", s!"atempo={fmtQ speed_factor}"]
        else ["-an"])
    ++ [pathStr output_path]
  ([.mkdir destination_dir true true,
    .runProcess (probeBitrateCmd source_path),
    .runProcess (probeAudioCmd source_path),
    .runProcess cmd], output_path)

/-- C7 counterexample: with exit code 1 and captured output "audio", the
source judges an audio stream present, while the claimed characterization
(exit code 0 AND non-empty trimmed output) judges it absent — the source
never consults the exit code. -/
theorem c7_audio_presence_ignores_exit_code_cex :
    probe_has_audio 1 "audio" = true ∧ specAudioPresence 1 "audio" = false := by
  constructor <;> decide

/-- C7 (amended): the audio probe judges a stream present exactly when the
trimmed standard output is non-empty, independently of the exit code; the
probe is a total Bool-valued function, so it never raises an error to the
owning transform. -/
theorem c7_audio_presence_characterization :
    ∀ (rc rc2 : Int) (out : String),
      probe_has_audio rc out = probe_has_audio rc2 out ∧
      (probe_has_audio rc out = true ↔ pyStrip out ≠ "") := by
  intro rc rc2 out
  exact ⟨rfl, by simp [probe_has_audio]⟩

/-- C8: a failed bitrate probe — non-zero exit code, or output that does
not parse as an integer — makes the base bitrate exactly 2000000, with no
error raised; and for every base bitrate and every jitter in the ±5
percent range the computed target bitrate (an integer by construction) is
at least 300000. -/
theorem c8_bitrate_default_and_floor :
    ∀ (rc : Int) (out : String) (b : ℤ) (delta : ℚ),
      (rc ≠ 0 → probe_bitrate rc out = 2000000) ∧
      (pyParseInt (pyStrip out) = none → probe_bitrate rc out = 2000000) ∧
      (-(5 / 100) ≤ delta → delta ≤ 5 / 100 → 300000 ≤ target_bitrate b delta) := by
  intro rc out b delta
  refine ⟨?_, ?_, ?_⟩
  · intro h
    simp [probe_bitrate, h]
  · intro h
    unfold probe_bitrate
    split
    · rw [h]
    · rfl
  · intro _ _
    exact le_max_right _ _

theorem c8_bitrate_default_and_floor_witness :
    probe_bitrate 1 "2500000" = 2000000 ∧
    probe_bitrate 0 "N/A" = 2000000 ∧
    300000 ≤ target_bitrate 2500000 (1 / 100) :=
  ⟨(c8_bitrate_default_and_floor 1 "2500000" 2500000 (1 / 100)).1 (by norm_num),
   (c8_bitrate_default_and_floor 0 "N/A" 2500000 (1 / 100)).2.1 (by decide),
   (c8_bitrate_default_and_floor 0 "N/A" 2500000 (1 / 100)).2.2
     (by norm_num) (by norm_num)⟩

/-- C9: the drawn rotation angle is always one of the four fixed values
-0.3, -0.2, 0.2, 0.3 — in particular never zero — and for a unit draw in
[0, 1] the noise intensity lies in the closed interval [1, 2]. -/
theorem c9_rotation_and_noise :
    ∀ (i : Nat) (u : ℚ), 0 ≤ u → u ≤ 1 →
      rotationDraw i ∈ rotationChoices ∧ rotationDraw i ≠ 0 ∧
      1 ≤ noise_level u ∧ noise_level u ≤ 2 := by
  intro i u hu0 hu1
  have hcases : i % 4 = 0 ∨ i % 4 = 1 ∨ i % 4 = 2 ∨ i % 4 = 3 := by omega
  have hrot : rotationDraw i ∈ rotationChoices ∧ rotationDraw i ≠ 0 := by
    unfold rotationDraw
    rcases hcases with h | h | h | h <;> rw [h] <;>
      exact ⟨by norm_num [rotationChoices], by norm_num [rotationChoices]⟩
  refine ⟨hrot.1, hrot.2, ?_, ?_⟩
  · unfold noise_level pyUniform
    linarith
  · unfold noise_level pyUniform
    linarith

theorem c9_rotation_and_noise_witness :
    rotationDraw 2 ∈ rotationChoices ∧ rotationDraw 2 ≠ 0 ∧
    1 ≤ noise_level (1 / 2) ∧ noise_level (1 / 2) ≤ 2 :=
  c9_rotation_and_noise 2 (1 / 2) (by norm_num) (by norm_num)

/-- C10: both transforms create the destination directory — with parents
and exist_ok set — as their very first effect, before any subprocess runs;
a mkdir with exist_ok on an already existing directory is not an error and
parents covers every missing ancestor; and the returned output path is the
destination directory extended by the freshly generated file name, hence
always inside it. -/
theorem c10_mkdir_first_and_output_location :
    ∀ (suffixLower uid : String) (i : Nat) (u : ℚ) (src dst : FsPath)
      (bitrateRc : Int) (bitrateOut : String) (d1 d2 d3 : ℚ)
      (audioRc : Int) (audioOut : String) (fs : List FsPath),
      (process_photo suffixLower uid i u src dst).1.head? =
        some (.mkdir dst true true) ∧
      (∀ n cmd, (process_photo suffixLower uid i u src dst).1.get? n =
        some (.runProcess cmd) → 0 < n) ∧
      (process_photo suffixLower uid i u src dst).2 =
        dst ++ [uid ++ orDefault suffixLower ".jpg"] ∧
      (process_video suffixLower uid bitrateRc bitrateOut d1 d2 d3
          audioRc audioOut src dst).1.head? =
        some (.mkdir dst true true) ∧
      (∀ n cmd, (process_video suffixLower uid bitrateRc bitrateOut d1 d2 d3
          audioRc audioOut src dst).1.get? n =
        some (.runProcess cmd) → 0 < n) ∧
      (process_video suffixLower uid bitrateRc bitrateOut d1 d2 d3
          audioRc audioOut src dst).2 =
        dst ++ [uid ++ videoSuffix suffixLower] ∧
      (dst ≠ [] → ∃ fs2, runMkdir fs dst true true = .ok fs2 ∧ dst ∈ fs2) := by
  intro suffixLower uid i u src dst bitrateRc bitrateOut d1 d2 d3 audioRc audioOut fs
  refine ⟨rfl, ?_, rfl, rfl, ?_, rfl, ?_⟩
  · intro n cmd h
    match n with
    | 0 =>
        rw [show (process_photo suffixLower uid i u src dst).1.get? 0 =
          some (.mkdir dst true true) from rfl] at h
        injection h with h
        exact Effect.noConfusion h
    | n + 1 => exact Nat.succ_pos n
  · intro n cmd h
    match n with
    | 0 =>
        rw [show (process_video suffixLower uid bitrateRc bitrateOut d1 d2 d3
          audioRc audioOut src dst).1.get? 0 =
          some (.mkdir dst true true) from rfl] at h
        injection h with h
        exact Effect.noConfusion h
    | n + 1 => exact Nat.succ_pos n
  · intro hdst
    unfold runMkdir
    by_cases hmem : dst ∈ fs
    · exact ⟨fs, by rw [if_pos hmem, if_pos rfl], hmem⟩
    · refine ⟨ancestors dst ++ fs, by rw [if_neg hmem, if_pos rfl], ?_⟩
      refine List.mem_append_left _ ?_
      unfold ancestors
      rw [List.mem_filter]
      exact ⟨(List.mem_inits dst dst).mpr (List.prefix_refl dst), by simp [hdst]⟩

theorem c10_mkdir_first_and_output_location_witness :
    (process_photo ".jpg" "abc" 1 (1 / 2) ["tmp", "in.jpg"] ["data", "out"]).1.head? =
      some (.mkdir ["data", "out"] true true) ∧
    (process_photo ".jpg" "abc" 1 (1 / 2) ["tmp", "in.jpg"] ["data", "out"]).2 =
      ["data", "out"] ++ ["abc" ++ orDefault ".jpg" ".jpg"] ∧
    (process_video ".jpg" "abc" 0 "5000000" 0 0 0 0 "audio"
        ["tmp", "in.jpg"] ["data", "out"]).1.head? =
      some (.mkdir ["data", "out"] true true) ∧
    (process_video ".jpg" "abc" 0 "5000000" 0 0 0 0 "audio"
        ["tmp", "in.jpg"] ["data", "out"]).2 =
      ["data", "out"] ++ ["abc" ++ videoSuffix ".jpg"] ∧
    ∃ fs2, runMkdir [["data"]] ["data", "out"] true true = .ok fs2 ∧
      ["data", "out"] ∈ fs2 :=
  have h := c10_mkdir_first_and_output_location ".jpg" "abc" 1 (1 / 2)
    ["tmp", "in.jpg"] ["data", "out"] 0 "5000000" 0 0 0 0 "audio" [["data"]]
  ⟨h.1, h.2.2.1, h.2.2.2.1, h.2.2.2.2.2.1, h.2.2.2.2.2.2 (by decide)⟩

/-- A concrete photo job with jid n, used in the concrete executions. -/
def mkJob (n : Nat) : MediaJob :=
  { kind := "photo", jid := n,
    source_path := ["tmp", "in.jpg"], destination_dir := ["data", "out"] }

/-- The state reached by: construct with capacity 3, start, submit one
job, stop. -/
def c1State : ProcState :=
  (runFrom (initState 3) [.start, .submit (mkJob 0), .stop]).getD (initState 3)

/-- C1 counterexample: when stop returns, the queued job future is still
pending — it was not resolved with a cancellation error — and, the worker
being dead, it stays pending in every reachable extension: the caller
suspended in submit is never woken. -/
theorem c1_stop_leaves_handle_pending_cex :
    runFrom (initState 3) [.start, .submit (mkJob 0), .stop] = some c1State ∧
    c1State.queue = [mkJob 0] ∧
    c1State.futures 0 = .pending ∧
    (∀ t, Reach c1State t → t.futures 0 = .pending) := by
  refine ⟨rfl, rfl, rfl, ?_⟩
  intro t ht
  exact ((dead_reach ⟨rfl, rfl⟩ ht).2 0).trans rfl

/-- C1 (amended): stop prevents the worker from dequeuing any further job
and terminates it, but it resolves no result handles: every future — in
particular that of any job still queued or in flight — is exactly as it
was before stop, so callers suspended in submit are not woken with a
cancellation error. -/
theorem c1_amended_stop_resolves_no_handles :
    ∀ (c : Nat) (s s2 : ProcState), Reach (initState c) s →
      stepFn s .stop = some s2 →
      (∀ k, s2.futures k = s.futures k) ∧
      s2.shutdown = true ∧
      (∀ t, stepFn s2 .getJob ≠ some t) := by
  intro c s s2 hreach hstop
  have inv := inv_reach hreach
  have hmain : s2.worker = .done ∧ (∀ k, s2.futures k = s.futures k) ∧
      s2.shutdown = true := by
    simp only [stepFn] at hstop
    split at hstop
    · injection hstop with h; subst h
      exact ⟨rfl, fun _ => rfl, rfl⟩
    · rename_i hv
      injection hstop with h; subst h
      exact ⟨inv.taskW (by simpa using hv), fun _ => rfl, rfl⟩
  refine ⟨hmain.2.1, hmain.2.2, ?_⟩
  intro t ht
  simp only [stepFn, hmain.1] at ht
  exact Option.noConfusion ht

/-- The state just before the stop of the C1 execution. -/
def c1PreStop : ProcState :=
  (runFrom (initState 3) [.start, .submit (mkJob 0)]).getD (initState 3)

theorem c1_amended_stop_resolves_no_handles_witness :
    (∀ k, c1State.futures k = c1PreStop.futures k) ∧
    c1State.shutdown = true ∧
    (∀ t, stepFn c1State .getJob ≠ some t) :=
  c1_amended_stop_resolves_no_handles 3 c1PreStop c1State
    (runFrom_reach [.start, .submit (mkJob 0)] (initState 3) c1PreStop rfl) rfl

/-- The state reached by: capacity 3, start, submit two jobs, stop. -/
def c2State : ProcState :=
  (runFrom (initState 3)
    [.start, .submit (mkJob 0), .submit (mkJob 1), .stop]).getD (initState 3)

/-- C2 counterexample: after stop the second submitted job future is
pending and — the worker being dead — remains pending in every reachable
extension: a submitted handle is left unresolved forever, refuting that
every handle is resolved exactly once whichever of success, error or
shutdown cancellation occurs. -/
theorem c2_handle_left_pending_forever_cex :
    runFrom (initState 3)
      [.start, .submit (mkJob 0), .submit (mkJob 1), .stop] = some c2State ∧
    c2State.futures 1 = .pending ∧
    (∀ t, Reach c2State t → t.futures 1 = .pending) := by
  refine ⟨rfl, rfl, ?_⟩
  intro t ht
  exact ((dead_reach ⟨rfl, rfl⟩ ht).2 1).trans rfl

/-- C2 (amended): a result handle is resolved at most once — across any
step of the system an already resolved future keeps its value, so neither
two results, nor a result after an exception, nor the converse can occur;
a handle can however be left pending forever when the processor is
stopped while the job is queued or in flight. -/
theorem c2_amended_handle_resolved_at_most_once :
    ∀ (s t : ProcState) (l : Label) (k : Nat),
      stepFn s l = some t → s.futures k ≠ .pending → t.futures k = s.futures k :=
  fun _ _ _ _ h hk => futures_permanent h hk

/-- A state whose job 0 future is already resolved with an error. -/
def c2Resolved : ProcState :=
  (runFrom (initState 3)
    [.start, .submit (mkJob 0), .check, .getJob,
     .finish (.error (.toolFailure "boom"))]).getD (initState 3)

theorem c2_amended_handle_resolved_at_most_once_witness :
    ((stepFn c2Resolved .check).getD (initState 3)).futures 0 =
      c2Resolved.futures 0 :=
  c2_amended_handle_resolved_at_most_once c2Resolved
    ((stepFn c2Resolved .check).getD (initState 3)) .check 0 rfl (by decide)

/-- The state reached by: capacity 3, start, stop, start again, submit. -/
def c3State : ProcState :=
  (runFrom (initState 3) [.start, .stop, .start, .submit (mkJob 0)]).getD (initState 3)

/-- C3 at the failing input start, stop, start, submit: the second start
cleared the shutdown flag but — the task attribute still holding the
cancelled task — launched no worker, so the job submitted afterwards is
queued with a dead worker and its future stays pending in every reachable
extension: it is never dequeued and never processed to resolution. -/
theorem c3_restart_launches_no_worker :
    runFrom (initState 3) [.start, .stop, .start, .submit (mkJob 0)] = some c3State ∧
    c3State.shutdown = false ∧
    c3State.taskVar = true ∧
    c3State.worker = .done ∧
    c3State.queue = [mkJob 0] ∧
    (∀ t, Reach c3State t → t.futures 0 = .pending) := by
  refine ⟨rfl, rfl, rfl, rfl, rfl, ?_⟩
  intro t ht
  exact ((dead_reach ⟨rfl, rfl⟩ ht).2 0).trans rfl

/-- C4: strict FIFO — in every reachable state the enqueue history equals
the dequeue history (the order in which the worker began processing jobs)
followed by the jobs still queued, in order: the worker begins jobs in
exactly enqueue order, no job overtakes an earlier one, and no enqueued
job leaves the queue other than by being dequeued by the worker. -/
theorem c4_fifo_order :
    ∀ (c : Nat) (s : ProcState), Reach (initState c) s →
      s.enqueued = s.dequeued ++ s.queue.map MediaJob.jid :=
  fun _ _ h => (inv_reach h).hist

/-- A state with one job being processed and one still queued. -/
def c4State : ProcState :=
  (runFrom (initState 3)
    [.start, .submit (mkJob 0), .submit (mkJob 1), .check, .getJob]).getD (initState 3)

theorem c4_fifo_order_witness :
    c4State.enqueued = c4State.dequeued ++ c4State.queue.map MediaJob.jid :=
  c4_fifo_order 3 c4State
    (runFrom_reach [.start, .submit (mkJob 0), .submit (mkJob 1), .check, .getJob]
      (initState 3) c4State rfl)

/-- The state reached by: capacity 3, start, four submits (the fourth
producer blocks on the full queue), stop. -/
def c5State : ProcState :=
  (runFrom (initState 3)
    [.start, .submit (mkJob 0), .submit (mkJob 1), .submit (mkJob 2),
     .submit (mkJob 3), .stop]).getD (initState 3)

/-- C5 counterexample: with the queue at its capacity 3 and a fourth
producer suspended in put, stop does not complete the suspended enqueue:
after stop the producer still heads the waiter list, and it does so in
every reachable extension — stopping the processor never completes the
blocked put, so the claimed disjunct that a suspended enqueue completes
once the processor is stopped is false. -/
theorem c5_stop_does_not_release_blocked_producer_cex :
    runFrom (initState 3)
      [.start, .submit (mkJob 0), .submit (mkJob 1), .submit (mkJob 2),
       .submit (mkJob 3), .stop] = some c5State ∧
    c5State.queue.length = 3 ∧
    c5State.pendingPuts.head? = some (mkJob 3) ∧
    (∀ t, Reach c5State t → t.pendingPuts.head? = some (mkJob 3)) := by
  refine ⟨rfl, rfl, rfl, ?_⟩
  intro t ht
  obtain ⟨_, _, _, d, hp⟩ := full_dead_reach ⟨rfl, rfl⟩ (by decide) ht
  rw [hp]
  rfl

/-- C5 (amended): occupancy never exceeds the configured capacity, and a
producer suspended in put completes as soon as the consumer frees a slot;
stopping the processor, however, does not complete a suspended enqueue. -/
theorem c5_amended_capacity_and_release :
    ∀ (c : Nat) (s : ProcState), Reach (initState c) s →
      s.queue.length ≤ s.capacity ∧
      (∀ p ps, s.pendingPuts = p :: ps → s.queue.length < s.capacity →
        ∃ t, stepFn s .putDone = some t ∧
          t.queue = s.queue ++ [p] ∧ t.pendingPuts = ps ∧
          t.enqueued = s.enqueued ++ [p.jid]) := by
  intro c s hreach
  refine ⟨(inv_reach hreach).cap, ?_⟩
  intro p ps hpp hlt
  refine ⟨{ s with
              queue := s.queue ++ [p], pendingPuts := ps,
              enqueued := s.enqueued ++ [p.jid] }, ?_, rfl, rfl, rfl⟩
  simp only [stepFn, hpp]
  rw [if_pos hlt]

/-- A state with a blocked producer and a freed slot: job 0 is being
processed, jobs 1 and 2 are queued, job 3 waits to enter the queue. -/
def c5Partial : ProcState :=
  (runFrom (initState 3)
    [.start, .submit (mkJob 0), .submit (mkJob 1), .submit (mkJob 2),
     .submit (mkJob 3), .check, .getJob]).getD (initState 3)

theorem c5_amended_capacity_and_release_witness :
    c5Partial.queue.length ≤ c5Partial.capacity ∧
    (∃ t, stepFn c5Partial .putDone = some t ∧
      t.queue = c5Partial.queue ++ [mkJob 3] ∧ t.pendingPuts = [] ∧
      t.enqueued = c5Partial.enqueued ++ [(mkJob 3).jid]) :=
  have h := c5_amended_capacity_and_release 3 c5Partial
    (runFrom_reach
      [.start, .submit (mkJob 0), .submit (mkJob 1), .submit (mkJob 2),
       .submit (mkJob 3), .check, .getJob] (initState 3) c5Partial rfl)
  ⟨h.1, h.2 (mkJob 3) [] rfl (by decide)⟩

/-- C6: an error outcome of a transform — a tool failure, or the
deterministic unknown-kind error — resolves exactly the failing job future
with that error, leaves every other future and the whole queue untouched,
and returns the worker to the top of its loop; and if no shutdown has been
signalled the worker can then dequeue and resolve every job still queued,
in particular every job queued after the failing one. -/
theorem c6_failure_isolated :
    ∀ (c : Nat) (s s2 : ProcState) (j : MediaJob) (e : MediaError),
      Reach (initState c) s → s.worker = .processing j →
      stepFn s (.finish (.error e)) = some s2 →
      s2.futures j.jid = .failed e ∧
      s2.worker = .idle ∧
      (∀ k, k ≠ j.jid → s2.futures k = s.futures k) ∧
      s2.queue = s.queue ∧
      (s2.shutdown = false →
        ∃ t, Reach s2 t ∧ ∀ jq ∈ s2.queue, jq.jid ∈ t.dequeued ∧
          t.futures jq.jid ≠ .pending) := by
  intro c s s2 j e hreach hw hstep
  have inv := inv_reach hreach
  have hpend : s.futures j.jid = .pending := inv.procPending j hw
  simp only [stepFn, hw] at hstep
  split at hstep
  · injection hstep with hstep
    subst hstep
    refine ⟨?_, rfl, ?_, rfl, ?_⟩
    · show resolveFuture s.futures j.jid (.error e) j.jid = .failed e
      unfold resolveFuture
      rw [hpend]
      simp
    · intro k hk
      exact resolveFuture_other s.futures j.jid k (.error e) hk
    · intro hsd
      obtain ⟨t, ht, hres⟩ := drain s.queue _ rfl hsd rfl
      exact ⟨t, ht, hres⟩
  · exact absurd hstep (by simp)

/-- A state with job 0 in flight and job 1 queued behind it. -/
def c6State : ProcState :=
  (runFrom (initState 3)
    [.start, .submit (mkJob 0), .submit (mkJob 1), .check, .getJob]).getD (initState 3)

/-- The state after the transform of job 0 fails in c6State. -/
def c6Post : ProcState :=
  (stepFn c6State (.finish (.error (.toolFailure "boom")))).getD (initState 3)

theorem c6_failure_isolated_witness :
    c6Post.futures (mkJob 0).jid = .failed (.toolFailure "boom") ∧
    c6Post.worker = .idle ∧
    c6Post.queue = c6State.queue ∧
    (∃ t, Reach c6Post t ∧ ∀ jq ∈ c6Post.queue, jq.jid ∈ t.dequeued ∧
      t.futures jq.jid ≠ .pending) :=
  have h := c6_failure_isolated 3 c6State c6Post (mkJob 0) (.toolFailure "boom")
    (runFrom_reach [.start, .submit (mkJob 0), .submit (mkJob 1), .check, .getJob]
      (initState 3) c6State rfl) rfl rfl
  ⟨h.1, h.2.1, h.2.2.2.1, h.2.2.2.2 rfl⟩
